import Mathlib

/-!
Verification of the sync-utils library (src/index.js).

The file shallowly embeds the three classes of the module
(DeferredPromise, Barrier, PromiseSynch) together with the slice of the
JavaScript runtime semantics they rely on:

* a fragment of the JavaScript value universe, its truthiness,
  strict comparison with the number 0, ToNumber and ToLength coercions,
  and array element lookup, used by the argument validation in
  the Barrier constructor and in Barrier.resolve;
* promise settlement histories and the semantics of Promise.all and
  Promise.race over a barrier's fixed array of one-shot promises;
* the ticket registry of PromiseSynch (a monotone counter plus a
  map from tickets to promises with self-eviction on settlement) and
  the semantics of Promise.allSettled composed with an optional
  continuation;
* a microtask-queue machine for a single promise, used to express the
  deferred (never synchronous) delivery of continuations and the
  delegation of then, catch and finally by DeferredPromise.
-/

/-! ## JavaScript values and coercions used by argument validation -/

/-- Fragment of the JavaScript value universe relevant to the numeric
argument validation in src/index.js: undefined, null, the booleans,
integral numbers and NaN.  Every value of this type denotes an actual
runtime value, and on this fragment the modeled truthiness, strict
comparison, ToNumber and ToLength coercions agree exactly with the
runtime. -/
inductive JSVal where
  | undef : JSVal
  | jnull : JSVal
  | boolV : Bool → JSVal
  | num : Int → JSVal
  | nan : JSVal
deriving DecidableEq, Repr

/-- Errors thrown synchronously by the library: the RangeError raised by
the explicit validation, and the TypeError raised by the runtime when a
non-existent member is invoked. -/
inductive JSError where
  | rangeError : String → JSError
  | typeError : String → JSError
deriving DecidableEq, Repr

/-- JavaScript truthiness of a value (the semantics of the `!` test in
the source's validation conditions). -/
def truthy : JSVal → Bool
  | .undef => false
  | .jnull => false
  | .boolV b => b
  | .num n => n != 0
  | .nan => false

/-- ECMAScript ToNumber on the modeled fragment; `none` stands for NaN.
On this fragment the coercion is exact: undefined converts to NaN, null
to 0, booleans to 0 and 1, a number to itself. -/
def toNumber : JSVal → Option Int
  | .undef => none
  | .jnull => some 0
  | .boolV b => some (if b then 1 else 0)
  | .num n => some n
  | .nan => none

/-- The comparison `v < 0` of the source: ToNumber the operand; a NaN
comparison is false. -/
def ltZero (v : JSVal) : Bool :=
  match toNumber v with
  | some n => n < 0
  | none => false

/-- The validation condition `v !== 0 && !v || v < 0` shared by the
Barrier constructor (on `length`) and Barrier.resolve (on `index`). -/
def checkFail (v : JSVal) : Bool :=
  (v != JSVal.num 0 && !truthy v) || ltZero v

/-- ECMAScript ToLength on the modeled fragment (as used by
`Array.from` with an array-like argument): NaN and negative numbers
clamp to 0, large numbers clamp to 2^53 - 1. -/
def toLength (v : JSVal) : Nat :=
  match toNumber v with
  | some n => min n.toNat (2 ^ 53 - 1)
  | none => 0

namespace Barrier

/-- The Barrier constructor (src/index.js lines 44-56): throws the
RangeError "Invalid length" when `length !== 0 && !length || length < 0`;
otherwise `Array.from` with that length creates ToLength-many slots,
each a fresh promise whose resolve function is captured — except that
array creation itself throws the runtime RangeError "Invalid array
length" when the coerced length exceeds 2^32 - 1.  The result records
the number of slots created. -/
def construct (length : JSVal) : Except JSError Nat :=
  if checkFail length then .error (.rangeError "Invalid length")
  else if 2 ^ 32 ≤ toLength length then .error (.rangeError "Invalid array length")
  else .ok (toLength length)

/-- Array element lookup `arr[index]` for an array of the given length:
an integral number in range finds the element; every other key of the
fragment (a negative or out-of-range number, or a non-numeric value
whose property key such as "true" or "NaN" is not an index of the
array) finds nothing. -/
def arrayGet (len : Nat) (v : JSVal) : Option Nat :=
  match v with
  | .num i => if 0 ≤ i ∧ i < (len : Int) then some i.toNat else none
  | _ => none

/-- Barrier.resolve (src/index.js lines 63-68) restricted to its index
handling: throws the RangeError "Invalid index" when
`index !== 0 && !index || index < 0`, and otherwise looks up
`this.resolveFunctions at index` and calls it — when the lookup finds no
element the call `undefined(value)` throws a TypeError.  On success the
result is the position of the slot that is settled. -/
def resolve (len : Nat) (index : JSVal) : Except JSError Nat :=
  if checkFail index then .error (.rangeError "Invalid index")
  else match arrayGet len index with
    | some k => .ok k
    | none => .error (.typeError "not a function")

end Barrier

/-! ## Promise settlement states and Barrier aggregate semantics

A barrier slot is a one-shot promise whose resolve function is the only
captured handle; resolving with a plain value fulfills the slot, and
resolving with a thenable that rejects makes the slot reject with that
error.  A history records, in temporal order, the effective settlement
requests `(slot index, outcome)` delivered to the slots.  Only the first
request aimed at a still-pending slot settles it; the underlying promise
ignores every later request. -/

/-- The settlement outcome carried by a settlement request. -/
inductive Outcome (V E : Type) where
  | ok : V → Outcome V E
  | err : E → Outcome V E
deriving DecidableEq, Repr

/-- The state of a promise: pending, fulfilled with a value, or rejected
with an error. -/
inductive PState (V E : Type) where
  | pending : PState V E
  | fulfilled : V → PState V E
  | rejected : E → PState V E
deriving DecidableEq, Repr

/-- The state a pending promise moves to when settled with an outcome. -/
def ofOutcome : Outcome V E → PState V E
  | .ok v => .fulfilled v
  | .err e => .rejected e

/-- A temporal sequence of settlement requests against barrier slots. -/
abbrev Hist (V E : Type) := List (Nat × Outcome V E)

/-- State of slot `i` after a history: the first settlement request aimed
at `i` wins (promises are one-shot), later requests are ignored. -/
def slotState (h : Hist V E) (i : Nat) : PState V E :=
  match h.find? (fun p => p.1 == i) with
  | some (_, .ok v) => .fulfilled v
  | some (_, .err e) => .rejected e
  | none => .pending

/-- Slot array evolution: a request settles its slot iff the index is in
range and the slot is still pending. -/
def runSlots (slots : List (PState V E)) : Hist V E → List (PState V E)
  | [] => slots
  | (i, o) :: rest =>
      match slots[i]? with
      | some .pending => runSlots (slots.set i (ofOutcome o)) rest
      | _ => runSlots slots rest

/-- Processing of a history by Promise.all's resolve element functions:
the first request that rejects a still-pending slot rejects the
aggregate immediately (short-circuit), otherwise the final slot array is
returned. -/
def procAll (slots : List (PState V E)) : Hist V E → Except E (List (PState V E))
  | [] => .ok slots
  | (i, o) :: rest =>
      match slots[i]? with
      | some .pending =>
          match o with
          | .ok v => procAll (slots.set i (.fulfilled v)) rest
          | .err e => .error e
      | _ => procAll slots rest

/-- Collect the values of an all-fulfilled slot array, in index order. -/
def collectVals : List (PState V E) → Option (List V)
  | [] => some []
  | .fulfilled v :: rest => (collectVals rest).map (v :: ·)
  | .pending :: _ => none
  | .rejected _ :: _ => none

/-- Barrier.all (src/index.js lines 75-77): `Promise.all` over the `n`
slot promises.  The aggregate rejects with the error of the first slot
rejection; once every slot has fulfilled it fulfills with the values in
index order; otherwise it is still pending. -/
def Barrier.all (n : Nat) (h : Hist V E) : PState (List V) E :=
  match procAll (List.replicate n .pending) h with
  | .error e => .rejected e
  | .ok slots =>
      match collectVals slots with
      | some vs => .fulfilled vs
      | none => .pending

/-- Processing of a history by Promise.race's element functions: the
first request that settles a still-pending slot settles the aggregate
with that slot's outcome. -/
def raceGo (slots : List (PState V E)) : Hist V E → PState V E
  | [] => .pending
  | (i, o) :: rest =>
      match slots[i]? with
      | some .pending => ofOutcome o
      | _ => raceGo slots rest

/-- Barrier.race (src/index.js lines 84-86): `Promise.race` over the `n`
slot promises. -/
def Barrier.race (n : Nat) (h : Hist V E) : PState V E :=
  raceGo (List.replicate n .pending) h

/-! ## PromiseSynch: ticket registry with self-eviction -/

/-- Events observable by the registry: adding a promise, and the
settlement of a promise (which triggers the finally continuation that
add attached, deleting the ticket).  Promises are identified by ids. -/
inductive SEv where
  | add : Nat → SEv
  | settle : Nat → SEv
deriving DecidableEq, Repr

/-- State of a PromiseSynch object: the private monotone counter and the
ticket-to-promise map, kept in insertion order like a JavaScript Map. -/
structure SynchState where
  index : Nat
  promises : List (Nat × Nat)
deriving DecidableEq, Repr

namespace PromiseSynch

/-- PromiseSynch.add (src/index.js lines 102-106) together with the
eviction performed by the finally continuation it attaches: add stores
the promise under the next counter value and bumps the counter; the
settlement of a promise deletes every ticket holding it. -/
def step (s : SynchState) : SEv → SynchState
  | .add f => ⟨s.index + 1, s.promises ++ [(s.index, f)]⟩
  | .settle f => ⟨s.index, s.promises.filter (fun p => p.2 != f)⟩

/-- Registry state after a sequence of events, starting from the freshly
constructed object (counter 0, empty map). -/
def run (evs : List SEv) : SynchState := evs.foldl step ⟨0, []⟩

/-- The promises added by a sequence of events, in order. -/
def addsOf (evs : List SEv) : List Nat :=
  evs.filterMap (fun e => match e with | .add f => some f | .settle _ => none)

/-- Number of add events in a sequence. -/
def countAdds (evs : List SEv) : Nat := (addsOf evs).length

/-- The promise that received ticket t, when the t-th add happened. -/
def nthAdd (evs : List SEv) (t : Nat) : Option Nat := (addsOf evs)[t]?

/-- Well-formedness of an event sequence: a promise is only added while
still unsettled (an already settled one-shot promise is not an in-flight
promise, so it is not offered to the registry after its settlement). -/
def validB : List SEv → Bool
  | [] => true
  | SEv.add _ :: rest => validB rest
  | SEv.settle f :: rest => !(decide (SEv.add f ∈ rest)) && validB rest

end PromiseSynch

/-! ## Promise.allSettled over the registry snapshot -/

/-- Outcome record reported by Promise.allSettled: tagged fulfilled with
the value or rejected with the reason. -/
inductive SettledRecord (V E : Type) where
  | fulfilled : V → SettledRecord V E
  | rejected : E → SettledRecord V E
deriving DecidableEq, Repr

/-- The record reported for a settlement outcome. -/
def toRecord : Outcome V E → SettledRecord V E
  | .ok v => .fulfilled v
  | .err e => .rejected e

/-- The record of a promise state, once it has settled. -/
def recordOf : PState V E → Option (SettledRecord V E)
  | .pending => none
  | .fulfilled v => some (.fulfilled v)
  | .rejected e => some (.rejected e)

/-- Current state of promise `f` under an assignment of settlement
outcomes: `done f` says whether f has settled yet and σ gives its
(eventual) outcome. -/
def stateOf (done : Nat → Bool) (σ : Nat → Outcome V E) (f : Nat) : PState V E :=
  if done f then ofOutcome (σ f) else .pending

/-- Semantics of promise.finally(cb) when cb returns normally (the
eviction callback only calls Map.delete, which never throws): the
derived promise mirrors the settlement of the original. -/
def finallyState : PState V E → PState V E := fun s => s

/-- Semantics of Promise.allSettled over a list of promise states: still
pending while any constituent is pending, and fulfilled with the ordered
record list once all have settled; it never rejects. -/
def allSettledSem (states : List (PState V E)) : PState (List (SettledRecord V E)) E :=
  match states.mapM recordOf with
  | some recs => .fulfilled recs
  | none => .pending

/-- Semantics of promise.then(g): g receives the fulfillment value and
its outcome (normal return = ok; a throw or a returned rejecting future
= err) becomes the derived promise's settlement; a rejection of the
original passes through. -/
def thenSem (p : PState A E) (g : A → Outcome R E) : PState R E :=
  match p with
  | .pending => .pending
  | .fulfilled a => ofOutcome (g a)
  | .rejected e => .rejected e

namespace PromiseSynch

/-- PromiseSynch.allSettled without the optional onsettled argument
(src/index.js lines 113-116): Promise.allSettled over the promises in
the map — the map's values iterator is drained synchronously inside the
call, so exactly the registry content at call time is waited on. -/
def allSettled (s : SynchState) (done : Nat → Bool) (σ : Nat → Outcome V E) :
    PState (List (SettledRecord V E)) E :=
  allSettledSem (s.promises.map (fun p => finallyState (stateOf done σ p.2)))

/-- PromiseSynch.allSettled with the optional onsettled function: the
aggregate is piped through promise.then(onsettled). -/
def allSettledWith (s : SynchState) (done : Nat → Bool) (σ : Nat → Outcome V E)
    (g : List (SettledRecord V E) → Outcome R E) : PState R E :=
  thenSem (allSettled s done σ) g

end PromiseSynch

/-! ## Microtask machine for a single promise -/

/-- Argument passed to a continuation when its job runs: then-callbacks
get the value, catch-callbacks the error, finally-callbacks nothing. -/
inductive Arg (V E : Type) where
  | val : V → Arg V E
  | err : E → Arg V E
  | unit : Arg V E
deriving DecidableEq, Repr

/-- The three kinds of continuations attachable to a promise. -/
inductive CbKind where
  | onOk : CbKind
  | onErr : CbKind
  | onFin : CbKind
deriving DecidableEq, Repr

/-- A single native promise together with the runtime's microtask queue
and a log of the continuation invocations that have actually run.
Reactions are continuations attached while the promise was pending, in
attachment order; queue entries are microtask jobs not yet executed. -/
structure Machine (V E : Type) where
  state : PState V E
  reactions : List (CbKind × Nat)
  queue : List (Nat × Arg V E)
  log : List (Nat × Arg V E)
deriving DecidableEq, Repr

/-- A freshly created promise: pending, no reactions, empty queue, empty
log. -/
def Machine.init : Machine V E := ⟨.pending, [], [], []⟩

/-- The job generated for a continuation of the given kind when the
promise settles in the given state; a then-callback on a rejection (and
a catch-callback on a fulfillment) is not invoked at all. -/
def jobOf (k : CbKind) (c : Nat) : PState V E → Option (Nat × Arg V E)
  | .pending => none
  | .fulfilled v =>
      match k with
      | .onOk => some (c, .val v)
      | .onErr => none
      | .onFin => some (c, .unit)
  | .rejected e =>
      match k with
      | .onOk => none
      | .onErr => some (c, .err e)
      | .onFin => some (c, .unit)

/-- Attaching a continuation (then/catch/finally): recorded as a
reaction while the promise is pending; on an already settled promise the
runtime enqueues the corresponding microtask job — the callback is never
invoked synchronously by the attaching call. -/
def attach (k : CbKind) (c : Nat) (m : Machine V E) : Machine V E :=
  match m.state with
  | .pending => { m with reactions := m.reactions ++ [(k, c)] }
  | s => { m with queue := m.queue ++ (jobOf k c s).toList }

/-- The captured resolve function: on a pending promise it stores the
fulfillment and enqueues one microtask job per recorded reaction, in
attachment order; on a settled promise it is a no-op.  The log is not
touched: no callback runs inside the settling call itself. -/
def settleOk (v : V) (m : Machine V E) : Machine V E :=
  match m.state with
  | .pending =>
      { state := .fulfilled v
        reactions := []
        queue := m.queue ++ m.reactions.filterMap (fun kc => jobOf kc.1 kc.2 (.fulfilled v))
        log := m.log }
  | _ => m

/-- The captured reject function, symmetric to `settleOk`. -/
def settleErr (e : E) (m : Machine V E) : Machine V E :=
  match m.state with
  | .pending =>
      { state := .rejected e
        reactions := []
        queue := m.queue ++ m.reactions.filterMap (fun kc => jobOf kc.1 kc.2 (.rejected e))
        log := m.log }
  | _ => m

/-- One turn of the cooperative scheduler: the oldest queued job runs,
invoking its continuation (recorded in the log). -/
def runJob (m : Machine V E) : Machine V E :=
  match m.queue with
  | [] => m
  | j :: rest => { m with queue := rest, log := m.log ++ [j] }

/-- Run the scheduler for the given number of turns. -/
def runTurns (m : Machine V E) : Nat → Machine V E
  | 0 => m
  | n + 1 => runTurns (runJob m) n

/-- Run the scheduler until the current queue is empty. -/
def drain (m : Machine V E) : Machine V E := runTurns m m.queue.length

/-- Attach a list of then-continuations, one after the other. -/
def attachAll (cs : List Nat) (m : Machine V E) : Machine V E :=
  cs.foldl (fun acc c => attach .onOk c acc) m

/-! ## DeferredPromise (src/index.js lines 12-28) -/

/-- A DeferredPromise owns one private native promise; the constructor
captures that promise's resolve and reject functions onto the instance
and binds the inner promise's then, catch and finally onto the
instance. -/
structure DeferredPromise (V E : Type) where
  inner : Machine V E
deriving DecidableEq, Repr

namespace DeferredPromise

/-- The constructor creates a fresh pending native promise. -/
def new : DeferredPromise V E := ⟨Machine.init⟩

/-- this.then, bound to the inner promise. -/
def thenD (d : DeferredPromise V E) (c : Nat) : DeferredPromise V E :=
  ⟨attach .onOk c d.inner⟩

/-- this.catch, bound to the inner promise. -/
def catchD (d : DeferredPromise V E) (c : Nat) : DeferredPromise V E :=
  ⟨attach .onErr c d.inner⟩

/-- this.finally, bound to the inner promise. -/
def finallyD (d : DeferredPromise V E) (c : Nat) : DeferredPromise V E :=
  ⟨attach .onFin c d.inner⟩

/-- this.resolve — the settle-success operation captured from the
executor, public on the instance. -/
def resolveD (d : DeferredPromise V E) (v : V) : DeferredPromise V E :=
  ⟨settleOk v d.inner⟩

/-- this.reject — the settle-failure operation captured from the
executor, public on the instance. -/
def rejectD (d : DeferredPromise V E) (e : E) : DeferredPromise V E :=
  ⟨settleErr e d.inner⟩

end DeferredPromise

/-- Operations a consumer can perform against a future: attach a then,
catch or finally continuation, call the two settle operations, or let
the scheduler run one turn. -/
inductive FOp (V E : Type) where
  | thenF : Nat → FOp V E
  | catchF : Nat → FOp V E
  | finallyF : Nat → FOp V E
  | resolveF : V → FOp V E
  | rejectF : E → FOp V E
  | tick : FOp V E
deriving DecidableEq, Repr

/-- Reference behavior of a standard native future under the consumer
operations: each operation acts directly on the native promise.  A
DeferredPromise is required to be indistinguishable from this. -/
def natStep (m : Machine V E) : FOp V E → Machine V E
  | .thenF c => attach .onOk c m
  | .catchF c => attach .onErr c m
  | .finallyF c => attach .onFin c m
  | .resolveF v => settleOk v m
  | .rejectF e => settleErr e m
  | .tick => runJob m

/-- A native future driven by a sequence of consumer operations. -/
def runNative (m : Machine V E) (ops : List (FOp V E)) : Machine V E :=
  ops.foldl natStep m

/-- A DeferredPromise driven by the same consumer operations, each going
through the instance's own members (the bound then/catch/finally and the
exposed resolve/reject). -/
def defStep (d : DeferredPromise V E) : FOp V E → DeferredPromise V E
  | .thenF c => d.thenD c
  | .catchF c => d.catchD c
  | .finallyF c => d.finallyD c
  | .resolveF v => d.resolveD v
  | .rejectF e => d.rejectD e
  | .tick => ⟨runJob d.inner⟩

/-- A DeferredPromise driven by a sequence of consumer operations. -/
def runDeferred (d : DeferredPromise V E) (ops : List (FOp V E)) : DeferredPromise V E :=
  ops.foldl defStep d

/-- The member surface of a JavaScript object as seen by duck-typed
runtime checks. -/
structure JSInterface where
  hasThen : Bool
  hasCatch : Bool
  hasFinally : Bool
  hasResolve : Bool
  hasReject : Bool
  toStringTag : String
deriving DecidableEq, Repr

/-- The members a DeferredPromise instance exposes after construction
(src/index.js lines 19-26). -/
def DeferredPromise.members : JSInterface :=
  ⟨true, true, true, true, true, "Promise"⟩

/-- Generic runtime check for a future: a thenable, that is an object
with a callable then member. -/
def isThenable (i : JSInterface) : Bool := i.hasThen

/-! ## Lemmas about the Barrier aggregate semantics -/

theorem slotState_cons_ne {V E : Type} {j i : Nat} (o : Outcome V E) (rest : Hist V E)
    (hij : j ≠ i) : slotState ((j, o) :: rest) i = slotState rest i := by
  unfold slotState
  rw [List.find?_cons_of_neg _ (by simpa using hij)]

theorem slotState_cons_self {V E : Type} {i : Nat} (o : Outcome V E) (rest : Hist V E) :
    slotState ((i, o) :: rest) i = ofOutcome o := by
  unfold slotState
  rw [List.find?_cons_of_pos _ (by simp)]
  cases o <;> rfl

theorem ofOutcome_ne_pending {V E : Type} (o : Outcome V E) : ofOutcome o ≠ PState.pending := by
  cases o <;> simp [ofOutcome]

theorem length_runSlots {V E : Type} (h : Hist V E) (slots : List (PState V E)) :
    (runSlots slots h).length = slots.length := by
  induction h generalizing slots with
  | nil => rfl
  | cons p rest ih =>
      obtain ⟨j, o⟩ := p
      cases hj : slots[j]? with
      | none => simp only [runSlots, hj]; exact ih _
      | some s =>
          cases s with
          | pending => simp only [runSlots, hj]; rw [ih, List.length_set]
          | fulfilled v => simp only [runSlots, hj]; exact ih _
          | rejected e => simp only [runSlots, hj]; exact ih _

theorem runSlots_getElem_stable {V E : Type} (h : Hist V E) (slots : List (PState V E))
    (i : Nat) (s : PState V E) (hs : slots[i]? = some s) (hnp : s ≠ PState.pending) :
    (runSlots slots h)[i]? = some s := by
  induction h generalizing slots with
  | nil => simpa [runSlots]
  | cons p rest ih =>
      obtain ⟨j, o⟩ := p
      cases hj : slots[j]? with
      | none => simp only [runSlots, hj]; exact ih slots hs
      | some t =>
          cases t with
          | pending =>
              simp only [runSlots, hj]
              have hij : j ≠ i := by
                intro hji; subst hji; rw [hj] at hs
                exact hnp (Option.some_inj.mp hs).symm
              exact ih _ (by rw [List.getElem?_set_ne hij]; exact hs)
          | fulfilled v => simp only [runSlots, hj]; exact ih slots hs
          | rejected e => simp only [runSlots, hj]; exact ih slots hs

theorem runSlots_getElem_pending {V E : Type} (h : Hist V E) (slots : List (PState V E))
    (i : Nat) (hp : slots[i]? = some PState.pending) :
    (runSlots slots h)[i]? = some (slotState h i) := by
  induction h generalizing slots with
  | nil => simpa [runSlots, slotState]
  | cons p rest ih =>
      obtain ⟨j, o⟩ := p
      by_cases hij : j = i
      · subst hij
        have hlen : j < slots.length := by
          rcases List.getElem?_eq_some.mp hp with ⟨hl, _⟩; exact hl
        simp only [runSlots, hp, slotState_cons_self]
        exact runSlots_getElem_stable rest _ j (ofOutcome o)
          (by rw [List.getElem?_set_self hlen]) (ofOutcome_ne_pending o)
      · rw [slotState_cons_ne o rest hij]
        cases hj : slots[j]? with
        | none => simp only [runSlots, hj]; exact ih slots hp
        | some t =>
            cases t with
            | pending =>
                simp only [runSlots, hj]
                exact ih _ (by rw [List.getElem?_set_ne hij]; exact hp)
            | fulfilled v => simp only [runSlots, hj]; exact ih slots hp
            | rejected e => simp only [runSlots, hj]; exact ih slots hp

theorem procAll_append {V E : Type} (h1 h2 : Hist V E) (slots : List (PState V E)) :
    procAll slots (h1 ++ h2) =
      match procAll slots h1 with
      | .error e => .error e
      | .ok l => procAll l h2 := by
  induction h1 generalizing slots with
  | nil => rfl
  | cons p rest ih =>
      obtain ⟨j, o⟩ := p
      cases hj : slots[j]? with
      | none => simp only [List.cons_append, procAll, hj]; exact ih _
      | some t =>
          cases t with
          | pending =>
              cases o with
              | ok v => simp only [List.cons_append, procAll, hj]; exact ih _
              | err e => simp only [List.cons_append, procAll, hj]
          | fulfilled v => simp only [List.cons_append, procAll, hj]; exact ih _
          | rejected e => simp only [List.cons_append, procAll, hj]; exact ih _

theorem procAll_ok_runSlots {V E : Type} (h : Hist V E) (slots l : List (PState V E))
    (hok : procAll slots h = .ok l) : l = runSlots slots h := by
  induction h generalizing slots with
  | nil =>
      simp only [procAll] at hok
      simp only [runSlots]
      exact (Except.ok.inj hok).symm
  | cons p rest ih =>
      obtain ⟨j, o⟩ := p
      cases hj : slots[j]? with
      | none =>
          simp only [procAll, hj] at hok
          simp only [runSlots, hj]
          exact ih _ hok
      | some t =>
          cases t with
          | pending =>
              cases o with
              | ok v =>
                  simp only [procAll, hj] at hok
                  simp only [runSlots, hj, ofOutcome]
                  exact ih _ hok
              | err e =>
                  simp only [procAll, hj] at hok
                  exact Except.noConfusion hok
          | fulfilled v =>
              simp only [procAll, hj] at hok
              simp only [runSlots, hj]
              exact ih _ hok
          | rejected e =>
              simp only [procAll, hj] at hok
              simp only [runSlots, hj]
              exact ih _ hok

theorem procAll_ok_of_fulfilled {V E : Type} (h : Hist V E) (slots : List (PState V E))
    (hall : ∀ i, i < slots.length → ∃ v, (runSlots slots h)[i]? = some (PState.fulfilled v)) :
    procAll slots h = .ok (runSlots slots h) := by
  induction h generalizing slots with
  | nil => rfl
  | cons p rest ih =>
      obtain ⟨j, o⟩ := p
      cases hj : slots[j]? with
      | none =>
          simp only [runSlots, hj] at hall ⊢
          simp only [procAll, hj]
          exact ih slots hall
      | some t =>
          cases t with
          | pending =>
              cases o with
              | ok v =>
                  simp only [runSlots, hj, ofOutcome] at hall ⊢
                  simp only [procAll, hj]
                  exact ih _ (by simpa [List.length_set] using hall)
              | err e =>
                  exfalso
                  have hlen : j < slots.length := by
                    rcases List.getElem?_eq_some.mp hj with ⟨hl, _⟩; exact hl
                  rcases hall j hlen with ⟨v, hv⟩
                  have hfin : (runSlots slots ((j, Outcome.err e) :: rest))[j]? =
                      some (PState.rejected e) := by
                    simp only [runSlots, hj, ofOutcome]
                    exact runSlots_getElem_stable rest _ j _
                      (by rw [List.getElem?_set_self hlen]) (by simp)
                  rw [hfin] at hv
                  exact PState.noConfusion (Option.some_inj.mp hv)
          | fulfilled v =>
              simp only [runSlots, hj] at hall ⊢
              simp only [procAll, hj]
              exact ih slots hall
          | rejected e =>
              simp only [runSlots, hj] at hall ⊢
              simp only [procAll, hj]
              exact ih slots hall

theorem collectVals_map {V E : Type} (vs : List V) :
    collectVals (E := E) (vs.map PState.fulfilled) = some vs := by
  induction vs with
  | nil => rfl
  | cons v rest ih => simp [collectVals, ih]

theorem raceGo_append {V E : Type} (h1 h2 : Hist V E) (slots : List (PState V E)) :
    raceGo slots (h1 ++ h2) =
      match raceGo slots h1 with
      | .pending => raceGo slots h2
      | s => s := by
  induction h1 with
  | nil => rfl
  | cons p rest ih =>
      obtain ⟨j, o⟩ := p
      cases hj : slots[j]? with
      | none => simp only [List.cons_append, raceGo, hj]; exact ih
      | some t =>
          cases t with
          | pending =>
              simp only [List.cons_append, raceGo, hj]
              cases o <;> rfl
          | fulfilled v => simp only [List.cons_append, raceGo, hj]; exact ih
          | rejected e => simp only [List.cons_append, raceGo, hj]; exact ih

theorem race_pending_no_inrange {V E : Type} (n : Nat) (h : Hist V E)
    (hp : Barrier.race n h = PState.pending) : ∀ p ∈ h, n ≤ p.1 := by
  induction h with
  | nil => simp
  | cons q rest ih =>
      obtain ⟨j, o⟩ := q
      by_cases hj : j < n
      · exfalso
        have : Barrier.race (V := V) (E := E) n ((j, o) :: rest) = ofOutcome o := by
          simp only [Barrier.race, raceGo, List.getElem?_replicate_of_lt hj]
        rw [this] at hp
        exact ofOutcome_ne_pending o hp
      · intro p hmem
        rcases List.mem_cons.mp hmem with hq | hmem'
        · rw [hq]; exact Nat.le_of_not_lt hj
        · refine ih ?_ p hmem'
          have hnone : (List.replicate n (PState.pending (V := V) (E := E)))[j]? = none :=
            List.getElem?_eq_none (by simpa using Nat.le_of_not_lt hj)
          simpa only [Barrier.race, raceGo, hnone] using hp

theorem slotState_append_of_settled {V E : Type} (h h2 : Hist V E) (i : Nat)
    (hs : slotState h i ≠ PState.pending) : slotState (h ++ h2) i = slotState h i := by
  unfold slotState at hs ⊢
  rw [List.find?_append]
  cases hfind : h.find? (fun p => p.1 == i) with
  | none => rw [hfind] at hs; simp at hs
  | some q => rw [Option.or_some]

theorem slotState_mem {V E : Type} (h : Hist V E) (i : Nat)
    (hs : slotState h i ≠ PState.pending) : ∃ q ∈ h, q.1 = i := by
  unfold slotState at hs
  cases hfind : h.find? (fun p => p.1 == i) with
  | none => rw [hfind] at hs; simp at hs
  | some q =>
      refine ⟨q, List.mem_of_find?_eq_some hfind, ?_⟩
      simpa using List.find?_some hfind

/-- C1: for a Barrier whose slots all fulfill, all() fulfills with the
ordered sequence of the slot values in index order; and as soon as any
one slot rejects while the aggregate is still pending, all() rejects
with that slot's error without waiting for the remaining slots (the
remaining history is arbitrary). -/
theorem barrier_all_correct (V E : Type) :
    (∀ (vs : List V) (h : Hist V E),
      (∀ i (hi : i < vs.length), slotState h i = PState.fulfilled (vs.get ⟨i, hi⟩)) →
      Barrier.all vs.length h = PState.fulfilled vs)
    ∧ (∀ (n : Nat) (h1 : Hist V E) (i : Nat) (e : E) (h2 : Hist V E),
      i < n → slotState h1 i = PState.pending → Barrier.all n h1 = PState.pending →
      Barrier.all n (h1 ++ (i, Outcome.err e) :: h2) = PState.rejected e) := by
  constructor
  · intro vs h hall
    have hrep : ∀ i, i < vs.length →
        (List.replicate vs.length (PState.pending (V := V) (E := E)))[i]? =
          some PState.pending := fun i hi => List.getElem?_replicate_of_lt hi
    have hrun : runSlots (List.replicate vs.length PState.pending) h =
        vs.map PState.fulfilled := by
      apply List.ext_getElem?
      intro k
      by_cases hk : k < vs.length
      · rw [runSlots_getElem_pending h _ k (hrep k hk), hall k hk]
        simp [List.getElem?_eq_getElem hk, List.get_eq_getElem]
      · rw [List.getElem?_eq_none, List.getElem?_eq_none]
        · simpa using Nat.le_of_not_lt hk
        · rw [length_runSlots, List.length_replicate]
          exact Nat.le_of_not_lt hk
    have hok : procAll (List.replicate vs.length PState.pending) h =
        .ok (runSlots (List.replicate vs.length PState.pending) h) := by
      apply procAll_ok_of_fulfilled
      intro i hi
      rw [List.length_replicate] at hi
      exact ⟨vs.get ⟨i, hi⟩, by rw [runSlots_getElem_pending h _ i (hrep i hi), hall i hi]⟩
    unfold Barrier.all
    rw [hok, hrun]
    simp [collectVals_map]
  · intro n h1 i e h2 hi hslot hpend
    cases hp : procAll (List.replicate n (PState.pending (V := V) (E := E))) h1 with
    | error e' =>
        exfalso
        unfold Barrier.all at hpend
        rw [hp] at hpend
        exact PState.noConfusion hpend
    | ok l =>
        have hl : l = runSlots (List.replicate n PState.pending) h1 :=
          procAll_ok_runSlots h1 _ l hp
        have hli : l[i]? = some PState.pending := by
          rw [hl, runSlots_getElem_pending h1 _ i (List.getElem?_replicate_of_lt hi), hslot]
        unfold Barrier.all
        rw [procAll_append, hp]
        simp only [procAll, hli]

/-- C1 witness: the size-3 examples of the specification. -/
theorem barrier_all_correct_witness :
    Barrier.all (V := String) (E := String) 3
        [(0, Outcome.ok "a"), (1, Outcome.ok "b"), (2, Outcome.ok "c")] =
      PState.fulfilled ["a", "b", "c"]
    ∧ Barrier.all (V := String) (E := String) 3
        [(1, Outcome.err "boom"), (0, Outcome.ok "a")] = PState.rejected "boom" := by
  constructor
  · exact (barrier_all_correct String String).1 ["a", "b", "c"] _ (by decide)
  · exact (barrier_all_correct String String).2 3 [] 1 "boom" [(0, Outcome.ok "a")]
      (by decide) (by decide) (by decide)

/-- C5: race() settles with the outcome of the first slot that settles
(whether a fulfillment or a rejection), and once settled its outcome is
unchanged by any later history. -/
theorem barrier_race_correct (V E : Type) :
    (∀ (n : Nat) (h1 : Hist V E) (i : Nat) (o : Outcome V E) (h2 : Hist V E),
      Barrier.race n h1 = PState.pending → i < n →
      Barrier.race n (h1 ++ (i, o) :: h2) = ofOutcome o)
    ∧ (∀ (n : Nat) (h h2 : Hist V E),
      Barrier.race n h ≠ PState.pending →
      Barrier.race n (h ++ h2) = Barrier.race n h) := by
  constructor
  · intro n h1 i o h2 hp hi
    unfold Barrier.race at hp ⊢
    rw [raceGo_append, hp]
    simp only [raceGo, List.getElem?_replicate_of_lt hi]
  · intro n h h2 hs
    unfold Barrier.race at hs ⊢
    rw [raceGo_append]
    cases hr : raceGo (List.replicate n PState.pending) h with
    | pending => exact absurd hr hs
    | fulfilled v => rfl
    | rejected e => rfl

/-- C5 witness: the size-2 example of the specification — slot 0 settles
first and fixes the outcome of race() even though slot 1 later settles
differently. -/
theorem barrier_race_correct_witness :
    Barrier.race (V := String) (E := String) 2
        [(0, Outcome.ok "x"), (1, Outcome.err "boom")] = PState.fulfilled "x"
    ∧ Barrier.race (V := String) (E := String) 2
        ([(0, Outcome.ok "x")] ++ [(1, Outcome.err "boom")]) =
      Barrier.race 2 [(0, Outcome.ok "x")] := by
  constructor
  · exact (barrier_race_correct String String).1 2 [] 0 (Outcome.ok "x")
      [(1, Outcome.err "boom")] (by decide) (by decide)
  · exact (barrier_race_correct String String).2 2 [(0, Outcome.ok "x")]
      [(1, Outcome.err "boom")] (by decide)

/-- C10: once a slot has been fulfilled (by the first resolve call aimed
at it), a later settlement request against the same slot is silently
ignored: the slot stays fulfilled with the first value, all() and race()
compute the same result as if the repeated call had not happened, and a
resolve call with any in-range index returns normally instead of
throwing. -/
theorem barrier_resolve_idempotent (V E : Type) (n i : Nat) (v : V)
    (h h' : Hist V E) (o : Outcome V E)
    (hs : slotState h i = PState.fulfilled v) :
    slotState (h ++ (i, o) :: h') i = PState.fulfilled v
    ∧ Barrier.all n (h ++ (i, o) :: h') = Barrier.all n (h ++ h')
    ∧ Barrier.race n (h ++ (i, o) :: h') = Barrier.race n (h ++ h')
    ∧ (∀ j : Nat, j < n → Barrier.resolve n (JSVal.num (j : Int)) = Except.ok j) := by
  have hnp : slotState h i ≠ PState.pending := by rw [hs]; simp
  refine ⟨?_, ?_, ?_, ?_⟩
  · rw [slotState_append_of_settled h ((i, o) :: h') i hnp, hs]
  · unfold Barrier.all
    rw [procAll_append, procAll_append]
    cases hp : procAll (List.replicate n (PState.pending (V := V) (E := E))) h with
    | error e => rfl
    | ok l =>
        have hl : l = runSlots (List.replicate n PState.pending) h :=
          procAll_ok_runSlots h _ l hp
        have hstep : procAll l ((i, o) :: h') = procAll l h' := by
          cases hli : l[i]? with
          | none => simp only [procAll, hli]
          | some t =>
              cases t with
              | pending =>
                  exfalso
                  have hi : i < n := by
                    have := List.getElem?_eq_some.mp hli
                    rcases this with ⟨hlt, _⟩
                    rw [hl, length_runSlots, List.length_replicate] at hlt
                    exact hlt
                  rw [hl, runSlots_getElem_pending h _ i
                    (List.getElem?_replicate_of_lt hi)] at hli
                  exact hnp (Option.some_inj.mp hli)
              | fulfilled w => simp only [procAll, hli]
              | rejected e => simp only [procAll, hli]
        exact congrArg (fun r => match r with
          | Except.error e => PState.rejected e
          | Except.ok slots =>
              match collectVals slots with
              | some vs => PState.fulfilled vs
              | none => PState.pending) hstep
  · unfold Barrier.race
    rw [raceGo_append, raceGo_append]
    cases hr : raceGo (List.replicate n (PState.pending (V := V) (E := E))) h with
    | pending =>
        rcases slotState_mem h i hnp with ⟨q, hqmem, hqi⟩
        have hge : n ≤ i := by
          have := race_pending_no_inrange n h (by simpa [Barrier.race] using hr) q hqmem
          rwa [hqi] at this
        have hnone : (List.replicate n (PState.pending (V := V) (E := E)))[i]? = none :=
          List.getElem?_eq_none (by simpa using hge)
        simp only [raceGo, hnone]
    | fulfilled w => rfl
    | rejected e => rfl
  · intro j hj
    have h0 : (0 : Int) ≤ (j : Int) := Int.ofNat_nonneg j
    have hcf : checkFail (JSVal.num (j : Int)) = false := by
      simp only [checkFail, truthy, ltZero, toNumber, Bool.or_eq_false_iff]
      constructor
      · rcases eq_or_ne (j : Int) 0 with h | h
        · rw [h]; simp
        · simp [h]
      · simp [not_lt.mpr h0]
    have hget : Barrier.arrayGet n (JSVal.num (j : Int)) = some j := by
      have hjlt : (j : Int) < (n : Int) := by exact_mod_cast hj
      simp [Barrier.arrayGet, h0, hjlt]
    unfold Barrier.resolve
    rw [hcf]
    simp [hget]

/-- C10 witness: a concrete resolve-twice run on a barrier of size 2. -/
theorem barrier_resolve_idempotent_witness :
    slotState (E := String)
        ([(0, Outcome.ok "a")] ++ (0, Outcome.ok "b") :: [(1, Outcome.ok "c")]) 0 =
      PState.fulfilled "a"
    ∧ Barrier.all (E := String) 2
        ([(0, Outcome.ok "a")] ++ (0, Outcome.ok "b") :: [(1, Outcome.ok "c")]) =
      Barrier.all 2 ([(0, Outcome.ok "a")] ++ [(1, Outcome.ok "c")])
    ∧ Barrier.race (E := String) 2
        ([(0, Outcome.ok "a")] ++ (0, Outcome.ok "b") :: [(1, Outcome.ok "c")]) =
      Barrier.race 2 ([(0, Outcome.ok "a")] ++ [(1, Outcome.ok "c")])
    ∧ (∀ j : Nat, j < 2 → Barrier.resolve 2 (JSVal.num (j : Int)) = Except.ok j) :=
  barrier_resolve_idempotent String String 2 0 "a" [(0, Outcome.ok "a")]
    [(1, Outcome.ok "c")] (Outcome.ok "b") (by decide)

/-! ## Validation behavior of the Barrier constructor and resolve -/

theorem checkFail_natNum (j : Nat) : checkFail (JSVal.num (j : Int)) = false := by
  simp only [checkFail, truthy, ltZero, toNumber, Bool.or_eq_false_iff]
  constructor
  · rcases eq_or_ne (j : Int) 0 with h | h
    · rw [h]; simp
    · simp [h]
  · simp [not_lt.mpr (Int.ofNat_nonneg j)]

/-- C3 counterexample: the claim states that constructing a Barrier
with a non-numeric length throws an InvalidArgument-style error, and
that every non-negative integer length succeeds; for the truthy
non-number true the constructor does not throw at all — validation
passes and a barrier with one slot is created — and for the length
2^32 the constructor fails with the runtime array-length RangeError
instead of succeeding. -/
theorem barrier_construct_counterexample :
    Barrier.construct (JSVal.boolV true) = Except.ok 1
    ∧ Barrier.construct (JSVal.num ((2 ^ 32 : Nat) : Int)) =
        Except.error (JSError.rangeError "Invalid array length") := by
  constructor
  · rfl
  · rfl

/-- C3 (amended): constructing with a number length n with
0 ≤ n < 2^32 succeeds and creates exactly n slots; the validation
RangeError is thrown exactly for the falsy non-zero lengths of the
fragment (missing, null, NaN, false) and for negative numbers; a truthy
non-numeric length does not throw the validation error — it is coerced,
so true yields one slot; and a length of 2^32 or more fails with the
runtime RangeError of array creation, not by validation. -/
theorem barrier_construct_amended :
    (∀ n : Nat, n < 2 ^ 32 → Barrier.construct (JSVal.num (n : Int)) = Except.ok n)
    ∧ (∀ n : Nat, 2 ^ 32 ≤ n → Barrier.construct (JSVal.num (n : Int)) =
        Except.error (JSError.rangeError "Invalid array length"))
    ∧ Barrier.construct JSVal.undef = Except.error (JSError.rangeError "Invalid length")
    ∧ Barrier.construct JSVal.jnull = Except.error (JSError.rangeError "Invalid length")
    ∧ Barrier.construct JSVal.nan = Except.error (JSError.rangeError "Invalid length")
    ∧ Barrier.construct (JSVal.boolV false) =
        Except.error (JSError.rangeError "Invalid length")
    ∧ (∀ i : Int, i < 0 →
        Barrier.construct (JSVal.num i) = Except.error (JSError.rangeError "Invalid length"))
    ∧ Barrier.construct (JSVal.boolV true) = Except.ok 1 := by
  refine ⟨?_, ?_, rfl, rfl, rfl, rfl, ?_, rfl⟩
  · intro n hn
    have h1 : checkFail (JSVal.num (n : Int)) = false := checkFail_natNum n
    have h2 : toLength (JSVal.num (n : Int)) = n := by
      simp only [toLength, toNumber, Int.toNat_ofNat]
      omega
    have h3 : ¬ 2 ^ 32 ≤ toLength (JSVal.num (n : Int)) := by
      rw [h2]; omega
    simp [Barrier.construct, h1, h2, h3]
    omega
  · intro n hn
    have h1 : checkFail (JSVal.num (n : Int)) = false := checkFail_natNum n
    have h2 : 2 ^ 32 ≤ toLength (JSVal.num (n : Int)) := by
      simp only [toLength, toNumber, Int.toNat_ofNat]
      omega
    simp [Barrier.construct, h1, h2]
    omega
  · intro i hi
    have hc : checkFail (JSVal.num i) = true := by
      simp [checkFail, ltZero, toNumber, hi]
    simp [Barrier.construct, hc]

/-- C3 witness: concrete instances of the amended validation behavior. -/
theorem barrier_construct_amended_witness :
    Barrier.construct (JSVal.num ((3 : Nat) : Int)) = Except.ok 3
    ∧ Barrier.construct (JSVal.num (-1 : Int)) =
        Except.error (JSError.rangeError "Invalid length")
    ∧ Barrier.construct (JSVal.num ((2 ^ 32 + 7 : Nat) : Int)) =
        Except.error (JSError.rangeError "Invalid array length") :=
  ⟨barrier_construct_amended.1 3 (by decide),
   barrier_construct_amended.2.2.2.2.2.2.1 (-1) (by decide),
   barrier_construct_amended.2.1 (2 ^ 32 + 7) (by decide)⟩

/-- C6 counterexample: the claim states that a non-numeric index makes
resolve throw the InvalidArgument-style RangeError; for the truthy
non-number true the validation passes and the failure is instead the
TypeError of invoking a non-existent member. -/
theorem barrier_resolve_counterexample :
    Barrier.resolve 3 (JSVal.boolV true) = Except.error (JSError.typeError "not a function")
    ∧ Barrier.resolve 3 (JSVal.boolV true) ≠
        Except.error (JSError.rangeError "Invalid index") := by
  have h1 : Barrier.resolve 3 (JSVal.boolV true) =
      Except.error (JSError.typeError "not a function") := rfl
  refine ⟨h1, ?_⟩
  rw [h1]
  intro h
  exact JSError.noConfusion (Except.error.inj h)

/-- C6 (amended): resolve throws the RangeError exactly for the falsy
non-zero indices of the fragment (missing, null, NaN, false) and for
negative numbers; a number index in range settles exactly the slot at
that position and returns normally; a number index at or beyond the
length, and likewise the truthy non-number true, fails synchronously as
the TypeError of invoking a non-existent member; no failure is
delivered through a rejected promise (both failure modes are thrown to
the direct caller). -/
theorem barrier_resolve_amended :
    (∀ len : Nat,
      Barrier.resolve len JSVal.undef = Except.error (JSError.rangeError "Invalid index"))
    ∧ (∀ len : Nat,
      Barrier.resolve len JSVal.jnull = Except.error (JSError.rangeError "Invalid index"))
    ∧ (∀ len : Nat,
      Barrier.resolve len JSVal.nan = Except.error (JSError.rangeError "Invalid index"))
    ∧ (∀ len : Nat, Barrier.resolve len (JSVal.boolV false) =
        Except.error (JSError.rangeError "Invalid index"))
    ∧ (∀ (len : Nat) (i : Int), i < 0 →
        Barrier.resolve len (JSVal.num i) = Except.error (JSError.rangeError "Invalid index"))
    ∧ (∀ len k : Nat, k < len → Barrier.resolve len (JSVal.num (k : Int)) = Except.ok k)
    ∧ (∀ len k : Nat, len ≤ k → Barrier.resolve len (JSVal.num (k : Int)) =
        Except.error (JSError.typeError "not a function"))
    ∧ (∀ len : Nat, Barrier.resolve len (JSVal.boolV true) =
        Except.error (JSError.typeError "not a function")) := by
  have hval : ∀ len : Nat, ∀ v : JSVal, checkFail v = true →
      Barrier.resolve len v = Except.error (JSError.rangeError "Invalid index") := by
    intro len v hv
    simp [Barrier.resolve, hv]
  refine ⟨fun len => hval len _ (by decide), fun len => hval len _ (by decide),
    fun len => hval len _ (by decide), fun len => hval len _ (by decide), ?_, ?_, ?_,
    fun len => rfl⟩
  · intro len i hi
    exact hval len _ (by simp [checkFail, ltZero, toNumber, hi])
  · intro len k hk
    have hget : Barrier.arrayGet len (JSVal.num (k : Int)) = some k := by
      have hklt : (k : Int) < (len : Int) := by exact_mod_cast hk
      simp [Barrier.arrayGet, Int.ofNat_nonneg k, hklt]
    simp [Barrier.resolve, checkFail_natNum, hget]
  · intro len k hk
    have hget : Barrier.arrayGet len (JSVal.num (k : Int)) = none := by
      have hnlt : ¬ (k : Int) < (len : Int) := by exact_mod_cast not_lt.mpr hk
      simp [Barrier.arrayGet, hnlt]
    simp [Barrier.resolve, checkFail_natNum, hget]

/-- C6 witness: concrete instances of the amended resolve behavior. -/
theorem barrier_resolve_amended_witness :
    Barrier.resolve 3 JSVal.undef = Except.error (JSError.rangeError "Invalid index")
    ∧ Barrier.resolve 3 (JSVal.num (-2 : Int)) =
        Except.error (JSError.rangeError "Invalid index")
    ∧ Barrier.resolve 3 (JSVal.num ((1 : Nat) : Int)) = Except.ok 1
    ∧ Barrier.resolve 3 (JSVal.num ((5 : Nat) : Int)) =
        Except.error (JSError.typeError "not a function")
    ∧ Barrier.resolve 3 (JSVal.boolV true) =
        Except.error (JSError.typeError "not a function") :=
  ⟨barrier_resolve_amended.1 3,
   barrier_resolve_amended.2.2.2.2.1 3 (-2) (by decide),
   barrier_resolve_amended.2.2.2.2.2.1 3 1 (by decide),
   barrier_resolve_amended.2.2.2.2.2.2.1 3 5 (by decide),
   barrier_resolve_amended.2.2.2.2.2.2.2 3⟩

/-! ## Lemmas about the PromiseSynch registry -/

namespace PromiseSynch

theorem run_append_one (evs : List SEv) (e : SEv) :
    run (evs ++ [e]) = step (run evs) e := by
  simp [run, List.foldl_append]

theorem addsOf_append (evs evs2 : List SEv) :
    addsOf (evs ++ evs2) = addsOf evs ++ addsOf evs2 := by
  simp [addsOf, List.filterMap_append]

theorem addsOf_add (f : Nat) : addsOf [SEv.add f] = [f] := rfl

theorem addsOf_settle (f : Nat) : addsOf [SEv.settle f] = [] := rfl

theorem validB_append_left (l l2 : List SEv) (hv : validB (l ++ l2) = true) :
    validB l = true := by
  induction l with
  | nil => rfl
  | cons x rest ih =>
      cases x with
      | add g =>
          simp only [List.cons_append, validB] at hv ⊢
          exact ih hv
      | settle g =>
          simp only [List.cons_append, validB, Bool.and_eq_true, Bool.not_eq_true',
            decide_eq_false_iff_not] at hv ⊢
          obtain ⟨h1, h2⟩ := hv
          exact ⟨fun hm => h1 (List.mem_append_left _ hm), ih h2⟩

theorem validB_add_last (l : List SEv) (f : Nat)
    (hv : validB (l ++ [SEv.add f]) = true) : SEv.settle f ∉ l := by
  induction l with
  | nil => simp
  | cons x rest ih =>
      cases x with
      | add g =>
          simp only [List.cons_append, validB] at hv
          simp only [List.mem_cons]
          rintro (h | h)
          · exact SEv.noConfusion h
          · exact ih hv h
      | settle g =>
          simp only [List.cons_append, validB, Bool.and_eq_true, Bool.not_eq_true',
            decide_eq_false_iff_not] at hv
          obtain ⟨h1, h2⟩ := hv
          simp only [List.mem_cons]
          rintro (h | h)
          · have hfg : f = g := SEv.settle.inj h
            subst hfg
            exact h1 (List.mem_append_right _ (List.mem_singleton.mpr rfl))
          · exact ih h2 h

theorem index_run (evs : List SEv) : (run evs).index = countAdds evs := by
  induction evs using List.reverseRecOn with
  | nil => rfl
  | append_singleton l e ih =>
      rw [run_append_one]
      cases e with
      | add f => simp [step, ih, countAdds, addsOf_append, addsOf_add]
      | settle f => simp [step, ih, countAdds, addsOf_append, addsOf_settle]

theorem mem_run_iff (evs : List SEv) (hv : validB evs = true) (t f : Nat) :
    (t, f) ∈ (run evs).promises ↔ nthAdd evs t = some f ∧ SEv.settle f ∉ evs := by
  induction evs using List.reverseRecOn with
  | nil => simp [run, nthAdd, addsOf]
  | append_singleton l e ih =>
      have hvl : validB l = true := validB_append_left l [e] hv
      rw [run_append_one]
      cases e with
      | add g =>
          have hnog : SEv.settle g ∉ l := validB_add_last l g hv
          have hlen : (addsOf l).length = countAdds l := rfl
          simp only [step, List.mem_append, List.mem_singleton, ih hvl, Prod.mk.injEq,
            index_run l]
          have hadds : nthAdd (l ++ [SEv.add g]) t = (addsOf l ++ [g])[t]? := by
            simp [nthAdd, addsOf_append, addsOf_add]
          rw [hadds]
          constructor
          · rintro (⟨hn, hns⟩ | h2)
            · have ht : t < (addsOf l).length := by
                rcases List.getElem?_eq_some.mp hn with ⟨h, _⟩; exact h
              rw [List.getElem?_append_left ht]
              exact ⟨hn, fun hor => hor.elim (fun hm => hns hm)
                (fun he => SEv.noConfusion he)⟩
            · obtain ⟨ht2, hf2⟩ := h2
              subst ht2
              subst hf2
              exact ⟨List.getElem?_concat_length (addsOf l) _, fun hor => hor.elim
                (fun hm => hnog hm) (fun he => SEv.noConfusion he)⟩
          · rintro ⟨hn, hns⟩
            rw [not_or] at hns
            obtain ⟨hns, _⟩ := hns
            by_cases ht : t < (addsOf l).length
            · rw [List.getElem?_append_left ht] at hn
              exact Or.inl ⟨hn, hns⟩
            · by_cases hteq : t = countAdds l
              · subst hteq
                have hcat : (addsOf l ++ [g])[countAdds l]? = some g :=
                  List.getElem?_concat_length (addsOf l) g
                rw [hcat] at hn
                exact Or.inr ⟨rfl, (Option.some_inj.mp hn).symm⟩
              · exfalso
                have : (addsOf l ++ [g])[t]? = none := by
                  apply List.getElem?_eq_none
                  simp only [List.length_append, List.length_singleton]
                  have h1 : countAdds l ≤ t := Nat.le_of_not_lt ht
                  omega
                rw [this] at hn
                exact Option.noConfusion hn
      | settle g =>
          simp only [step, List.mem_filter, ih hvl, bne_iff_ne, ne_eq, decide_eq_true_eq]
          have hadds : nthAdd (l ++ [SEv.settle g]) t = nthAdd l t := by
            simp [nthAdd, addsOf_append, addsOf_settle]
          have hmem : (SEv.settle f ∈ l ++ [SEv.settle g]) ↔ SEv.settle f ∈ l ∨ f = g := by
            simp [SEv.settle.injEq]
          rw [hadds, hmem]
          constructor
          · rintro ⟨⟨hn, hns⟩, hfg⟩
            exact ⟨hn, by tauto⟩
          · rintro ⟨hn, hns⟩
            push_neg at hns
            exact ⟨⟨hn, hns.1⟩, hns.2⟩

theorem keys_invariant (evs : List SEv) :
    (∀ p ∈ (run evs).promises, p.1 < (run evs).index)
    ∧ List.Pairwise (· < ·) ((run evs).promises.map Prod.fst) := by
  induction evs using List.reverseRecOn with
  | nil => simp [run]
  | append_singleton l e ih =>
      obtain ⟨ihb, ihs⟩ := ih
      rw [run_append_one]
      cases e with
      | add g =>
          constructor
          · intro p hp
            simp only [step, List.mem_append, List.mem_singleton] at hp
            rcases hp with hp | rfl
            · exact Nat.lt_succ_of_lt (ihb p hp)
            · exact Nat.lt_succ_self _
          · simp only [step, List.map_append, List.map_cons, List.map_nil]
            rw [List.pairwise_append]
            refine ⟨ihs, by simp, ?_⟩
            intro a ha b hb
            simp only [List.mem_singleton] at hb
            subst hb
            simp only [List.mem_map] at ha
            obtain ⟨p, hp, rfl⟩ := ha
            exact ihb p hp
      | settle g =>
          constructor
          · intro p hp
            simp only [step] at hp ⊢
            exact ihb p (List.mem_of_mem_filter hp)
          · simp only [step]
            exact ihs.sublist ((List.filter_sublist _).map Prod.fst)

theorem ticket_not_reused (evs evs2 : List SEv) (t f : Nat)
    (hv2 : validB (evs ++ evs2) = true)
    (hn : nthAdd evs t = some f) (hsf : SEv.settle f ∈ evs) :
    ∀ g, (t, g) ∉ (run (evs ++ evs2)).promises := by
  intro g hmem
  obtain ⟨hn2, hns⟩ := (mem_run_iff (evs ++ evs2) hv2 t g).mp hmem
  have ht : t < (addsOf evs).length := by
    rcases List.getElem?_eq_some.mp hn with ⟨h, _⟩; exact h
  have hfull : nthAdd (evs ++ evs2) t = some f := by
    unfold nthAdd
    rw [addsOf_append, List.getElem?_append_left ht]
    exact hn
  rw [hfull] at hn2
  obtain rfl : f = g := Option.some_inj.mp hn2
  exact hns (List.mem_append_left _ hsf)

theorem mem_run_added (evs : List SEv) : ∀ (s0 : SynchState) (t f : Nat),
    (t, f) ∈ (evs.foldl step s0).promises → SEv.add f ∈ evs ∨ (t, f) ∈ s0.promises := by
  induction evs with
  | nil => intro s0 t f hm; exact Or.inr hm
  | cons e rest ih =>
      intro s0 t f hm
      rcases ih (step s0 e) t f hm with hr | hs
      · exact Or.inl (List.mem_cons_of_mem _ hr)
      · cases e with
        | add g =>
            simp only [step, List.mem_append, List.mem_singleton, Prod.mk.injEq] at hs
            rcases hs with hs | ⟨rfl, rfl⟩
            · exact Or.inr hs
            · exact Or.inl (List.mem_cons_self _ _)
        | settle g =>
            exact Or.inr (List.mem_of_mem_filter hs)

end PromiseSynch

/-- C4: for any well-formed sequence of add and settlement events, the
registry counter equals the number of adds; a ticket is in the map iff
it was handed out by the corresponding add and that promise has not yet
settled (settlement self-evicts the ticket); tickets are handed out in
strictly increasing order starting at 0; and an evicted ticket never
reappears under any later well-formed continuation of the events. -/
theorem promiseSynch_registry_invariant (evs : List SEv) (t f : Nat)
    (hv : PromiseSynch.validB evs = true) :
    (PromiseSynch.run evs).index = PromiseSynch.countAdds evs
    ∧ ((t, f) ∈ (PromiseSynch.run evs).promises ↔
        PromiseSynch.nthAdd evs t = some f ∧ SEv.settle f ∉ evs)
    ∧ (∀ p ∈ (PromiseSynch.run evs).promises, p.1 < (PromiseSynch.run evs).index)
    ∧ List.Pairwise (· < ·) ((PromiseSynch.run evs).promises.map Prod.fst)
    ∧ (∀ (evs2 : List SEv) (g : Nat), PromiseSynch.validB (evs ++ evs2) = true →
        PromiseSynch.nthAdd evs t = some f → SEv.settle f ∈ evs →
        (t, g) ∉ (PromiseSynch.run (evs ++ evs2)).promises) :=
  ⟨PromiseSynch.index_run evs, PromiseSynch.mem_run_iff evs hv t f,
   (PromiseSynch.keys_invariant evs).1, (PromiseSynch.keys_invariant evs).2,
   fun evs2 g hv2 hn hs => PromiseSynch.ticket_not_reused evs evs2 t f hv2 hn hs g⟩

/-- C4 witness: after add(f1), add(f2) and the settlement of f1, the map
holds exactly the ticket of f2 (ticket 1), and the membership
characterization holds at that run. -/
theorem promiseSynch_registry_invariant_witness :
    PromiseSynch.validB [SEv.add 1, SEv.add 2, SEv.settle 1] = true
    ∧ (PromiseSynch.run [SEv.add 1, SEv.add 2, SEv.settle 1]).promises = [(1, 2)]
    ∧ ((1, 2) ∈ (PromiseSynch.run [SEv.add 1, SEv.add 2, SEv.settle 1]).promises ↔
        PromiseSynch.nthAdd [SEv.add 1, SEv.add 2, SEv.settle 1] 1 = some 2
        ∧ SEv.settle 2 ∉ [SEv.add 1, SEv.add 2, SEv.settle 1]) :=
  ⟨by decide, by decide,
   (promiseSynch_registry_invariant [SEv.add 1, SEv.add 2, SEv.settle 1] 1 2
      (by decide)).2.1⟩

/-! ## Lemmas about allSettled -/

theorem recordOf_ofOutcome {V E : Type} (o : Outcome V E) :
    recordOf (ofOutcome o) = some (toRecord o) := by
  cases o <;> rfl

theorem mapM_recordOf_all {V E : Type} (l : List (Nat × Nat)) (done : Nat → Bool)
    (σ : Nat → Outcome V E) (hall : ∀ p ∈ l, done p.2 = true) :
    (l.map (fun p => finallyState (stateOf done σ p.2))).mapM recordOf =
      some (l.map (fun p => toRecord (σ p.2))) := by
  induction l with
  | nil => rfl
  | cons p rest ih =>
      have hp : done p.2 = true := hall p (List.mem_cons_self p rest)
      have hrec : recordOf (finallyState (stateOf done σ p.2)) = some (toRecord (σ p.2)) := by
        rw [show finallyState (stateOf done σ p.2) = ofOutcome (σ p.2) by
          simp [finallyState, stateOf, hp]]
        exact recordOf_ofOutcome (σ p.2)
      simp only [List.map_cons, List.mapM_cons, hrec, Option.bind_eq_bind,
        Option.some_bind]
      rw [ih (fun q hq => hall q (List.mem_cons_of_mem _ hq))]
      rfl

theorem mapM_eq_none_of_mem {A B : Type} (l : List A) (f : A → Option B) (x : A)
    (hx : x ∈ l) (hfx : f x = none) : l.mapM f = none := by
  induction l with
  | nil => cases hx
  | cons y rest ih =>
      rw [List.mapM_cons]
      rcases List.mem_cons.mp hx with rfl | hx2
      · simp only [hfx]
        rfl
      · cases hy : f y with
        | none => rfl
        | some b => simp only [ih hx2]; rfl

/-- C2: allSettled fulfills, once every promise in the registry snapshot
has settled, with the ordered sequence of per-entry records, each tagged
fulfilled or rejected with the original value or error; it never rejects
on account of a constituent; while some snapshot promise is unsettled it
is still pending; with the optional onsettled function, the outcome of
onsettled applied to the record sequence becomes the returned future's
outcome; and every promise waited on was previously added to the
registry (promises added after the call are not in the snapshot). -/
theorem promiseSynch_allSettled_correct (V E R : Type) (s : SynchState)
    (done : Nat → Bool) (σ : Nat → Outcome V E)
    (g : List (SettledRecord V E) → Outcome R E)
    (hall : ∀ p ∈ s.promises, done p.2 = true) :
    PromiseSynch.allSettled s done σ =
      PState.fulfilled (s.promises.map (fun p => toRecord (σ p.2)))
    ∧ PromiseSynch.allSettledWith s done σ g =
        ofOutcome (g (s.promises.map (fun p => toRecord (σ p.2))))
    ∧ (∀ (s2 : SynchState) (done2 : Nat → Bool) (σ2 : Nat → Outcome V E) (e : E),
        PromiseSynch.allSettled s2 done2 σ2 ≠ PState.rejected e)
    ∧ (∀ v : V, toRecord (E := E) (Outcome.ok v) = SettledRecord.fulfilled v)
    ∧ (∀ e : E, toRecord (V := V) (Outcome.err e) = SettledRecord.rejected e)
    ∧ (∀ (s2 : SynchState) (done2 : Nat → Bool) (σ2 : Nat → Outcome V E) (p : Nat × Nat),
        p ∈ s2.promises → done2 p.2 = false →
        PromiseSynch.allSettled s2 done2 σ2 = PState.pending)
    ∧ (∀ (evs : List SEv) (t f2 : Nat), (t, f2) ∈ (PromiseSynch.run evs).promises →
        SEv.add f2 ∈ evs) := by
  have hfst : PromiseSynch.allSettled s done σ =
      PState.fulfilled (s.promises.map (fun p => toRecord (σ p.2))) := by
    unfold PromiseSynch.allSettled allSettledSem
    rw [mapM_recordOf_all s.promises done σ hall]
  refine ⟨hfst, ?_, ?_, fun v => rfl, fun e => rfl, ?_, ?_⟩
  · unfold PromiseSynch.allSettledWith
    rw [hfst]
    rfl
  · intro s2 done2 σ2 e
    unfold PromiseSynch.allSettled allSettledSem
    cases hm : (s2.promises.map (fun p => finallyState (stateOf done2 σ2 p.2))).mapM
        recordOf <;> simp
  · intro s2 done2 σ2 p hp hdone
    unfold PromiseSynch.allSettled allSettledSem
    have hnone : recordOf (finallyState (stateOf done2 σ2 p.2)) = none := by
      simp [finallyState, stateOf, hdone, recordOf]
    rw [mapM_eq_none_of_mem _ recordOf _
      (List.mem_map_of_mem (fun q => finallyState (stateOf done2 σ2 q.2)) hp) hnone]
  · intro evs t f2 hm
    rcases PromiseSynch.mem_run_added evs ⟨0, []⟩ t f2 hm with h | h
    · exact h
    · cases h

/-- C2 witness: a registry with three outstanding promises of which one
rejects — allSettled fulfills with the three correctly tagged records
and does not reject. -/
theorem promiseSynch_allSettled_correct_witness :
    PromiseSynch.allSettled (PromiseSynch.run [SEv.add 1, SEv.add 2, SEv.add 3])
        (fun _ => true)
        (fun f => if f = 2 then Outcome.err "boom" else Outcome.ok f) =
      PState.fulfilled [SettledRecord.fulfilled 1, SettledRecord.rejected "boom",
        SettledRecord.fulfilled 3] := by
  have h := (promiseSynch_allSettled_correct Nat String Nat
      (PromiseSynch.run [SEv.add 1, SEv.add 2, SEv.add 3]) (fun _ => true)
      (fun f => if f = 2 then Outcome.err "boom" else Outcome.ok f)
      (fun recs => Outcome.ok recs.length) (by decide)).1
  rw [h]
  rfl

/-! ## Lemmas about the microtask machine and DeferredPromise -/

theorem runTurns_full {V E : Type} (q : List (Nat × Arg V E)) :
    ∀ (st : PState V E) (r : List (CbKind × Nat)) (lg : List (Nat × Arg V E)),
      runTurns (Machine.mk st r q lg) q.length = Machine.mk st r [] (lg ++ q) := by
  induction q with
  | nil => intro st r lg; simp [runTurns]
  | cons j rest ih =>
      intro st r lg
      show runTurns (runJob (Machine.mk st r (j :: rest) lg)) rest.length = _
      rw [show runJob (Machine.mk st r (j :: rest) lg) = Machine.mk st r rest (lg ++ [j])
        from rfl]
      rw [ih st r (lg ++ [j])]
      simp

theorem drain_eq {V E : Type} (m : Machine V E) :
    drain m = { m with queue := [], log := m.log ++ m.queue } := by
  cases m with
  | mk st r q lg => exact runTurns_full q st r lg

theorem attachAll_pending {V E : Type} (cs : List Nat) :
    ∀ m : Machine V E, m.state = PState.pending →
      attachAll cs m = { m with reactions := m.reactions ++ cs.map (fun c => (CbKind.onOk, c)) } := by
  induction cs with
  | nil => intro m hm; simp [attachAll]
  | cons c rest ih =>
      intro m hm
      show attachAll rest (attach CbKind.onOk c m) = _
      have ha : attach CbKind.onOk c m = { m with reactions := m.reactions ++ [(CbKind.onOk, c)] } := by
        unfold attach
        rw [hm]
      rw [ha, ih _ (by simp [hm])]
      simp

theorem attachAll_fulfilled {V E : Type} (cs : List Nat) :
    ∀ (m : Machine V E) (v : V), m.state = PState.fulfilled v →
      attachAll cs m = { m with queue := m.queue ++ cs.map (fun c => (c, Arg.val v)) } := by
  induction cs with
  | nil => intro m v hm; simp [attachAll]
  | cons c rest ih =>
      intro m v hm
      show attachAll rest (attach CbKind.onOk c m) = _
      have ha : attach CbKind.onOk c m = { m with queue := m.queue ++ [(c, Arg.val v)] } := by
        unfold attach
        rw [hm]
        rfl
      rw [ha, ih _ v (by simp [hm])]
      simp

theorem jobs_of_onOk {V E : Type} (cs : List Nat) (v : V) :
    ((cs.map (fun c => (CbKind.onOk, c))).filterMap
        (fun kc => jobOf (E := E) kc.1 kc.2 (PState.fulfilled v))) =
      cs.map (fun c => (c, Arg.val v)) := by
  induction cs with
  | nil => rfl
  | cons c rest ih =>
      show (c, Arg.val v) :: (rest.map (fun c => (CbKind.onOk, c))).filterMap
          (fun kc => jobOf (E := E) kc.1 kc.2 (PState.fulfilled v)) = _
      rw [ih]
      rfl

theorem foldl_thenD {V E : Type} (cs : List Nat) :
    ∀ d : DeferredPromise V E,
      cs.foldl (fun d c => DeferredPromise.thenD d c) d = ⟨attachAll cs d.inner⟩ := by
  induction cs with
  | nil => intro d; rfl
  | cons c rest ih =>
      intro d
      show rest.foldl (fun d c => DeferredPromise.thenD d c) (d.thenD c) = _
      rw [ih]
      rfl

theorem defStep_inner {V E : Type} (d : DeferredPromise V E) (op : FOp V E) :
    (defStep d op).inner = natStep d.inner op := by
  cases op <;> rfl

theorem runDeferred_inner {V E : Type} (ops : List (FOp V E)) :
    ∀ d : DeferredPromise V E, (runDeferred d ops).inner = runNative d.inner ops := by
  induction ops with
  | nil => intro d; rfl
  | cons op rest ih =>
      intro d
      show (runDeferred (defStep d op) rest).inner = runNative (natStep d.inner op) rest
      rw [ih, defStep_inner]

/-- C7: after attaching a success continuation and calling the captured
resolve with 42, the continuation has not run inside the settling call
(the log is still empty) and it receives 42 on a later scheduler turn;
the same holds when the continuation is attached after the promise has
already been settled; and in general neither a settle operation nor an
attach operation ever invokes a callback synchronously (the log is
unchanged by both). -/
theorem deferredPromise_async_delivery (c : Nat) :
    (settleOk 42 (attach CbKind.onOk c (Machine.init (V := Nat) (E := String)))).log = []
    ∧ (drain (settleOk 42 (attach CbKind.onOk c (Machine.init (V := Nat) (E := String))))).log
        = [(c, Arg.val 42)]
    ∧ (attach CbKind.onOk c (settleOk 42 (Machine.init (V := Nat) (E := String)))).log = []
    ∧ (drain (attach CbKind.onOk c (settleOk 42 (Machine.init (V := Nat) (E := String))))).log
        = [(c, Arg.val 42)]
    ∧ (∀ (m : Machine Nat String) (v : Nat), (settleOk v m).log = m.log)
    ∧ (∀ (m : Machine Nat String) (e : String), (settleErr e m).log = m.log)
    ∧ (∀ (m : Machine Nat String) (k : CbKind) (c2 : Nat), (attach k c2 m).log = m.log) := by
  refine ⟨rfl, rfl, rfl, rfl, ?_, ?_, ?_⟩
  · intro m v
    cases m with
    | mk st r q lg => cases st <;> rfl
  · intro m e
    cases m with
    | mk st r q lg => cases st <;> rfl
  · intro m k c2
    cases m with
    | mk st r q lg => cases st <;> rfl

/-- C9: settling a DeferredPromise with v delivers exactly v, unchanged,
to every success continuation, whether attached before or after the
settlement; once the scheduler has run the queued jobs, the log lists
one invocation per continuation, in attachment order, each carrying v. -/
theorem deferredPromise_roundTrip (V E : Type) (v : V) (cs1 cs2 : List Nat) :
    (drain (cs2.foldl (fun d c => DeferredPromise.thenD d c)
        ((cs1.foldl (fun d c => DeferredPromise.thenD d c)
          (DeferredPromise.new (V := V) (E := E))).resolveD v)).inner).log =
      (cs1 ++ cs2).map (fun c => (c, Arg.val v)) := by
  rw [foldl_thenD]
  have e1 : attachAll cs1 (DeferredPromise.new (V := V) (E := E)).inner =
      Machine.mk PState.pending (cs1.map (fun c => (CbKind.onOk, c))) [] [] := by
    rw [attachAll_pending cs1 _ rfl]
    rfl
  have e2 : ((cs1.foldl (fun d c => DeferredPromise.thenD d c)
      (DeferredPromise.new (V := V) (E := E))).resolveD v).inner =
      Machine.mk (PState.fulfilled v) [] (cs1.map (fun c => (c, Arg.val v))) [] := by
    rw [show ∀ d : DeferredPromise V E, (d.resolveD v).inner = settleOk v d.inner
      from fun d => rfl]
    rw [foldl_thenD]
    show settleOk v (attachAll cs1 (DeferredPromise.new (V := V) (E := E)).inner) = _
    rw [e1]
    show Machine.mk (PState.fulfilled v) []
      (([] : List (Nat × Arg V E)) ++ (cs1.map (fun c => (CbKind.onOk, c))).filterMap
        (fun kc => jobOf kc.1 kc.2 (PState.fulfilled v))) [] = _
    rw [List.nil_append, jobs_of_onOk]
  show (drain (attachAll cs2 ((cs1.foldl (fun d c => DeferredPromise.thenD d c)
      (DeferredPromise.new (V := V) (E := E))).resolveD v).inner)).log =
    (cs1 ++ cs2).map (fun c => (c, Arg.val v))
  rw [e2, attachAll_fulfilled cs2 _ v rfl]
  rw [drain_eq]
  simp

/-- C8: under every sequence of consumer operations the DeferredPromise
wrapper, driven through its own bound then, catch and finally members
and its exposed resolve and reject members, leaves the underlying
promise in exactly the state the native promise reaches under the same
operations; the instance passes the duck-typed thenable check and
carries the Promise string tag; and each member is definitionally the
corresponding native operation on the inner promise. -/
theorem deferredPromise_refines (V E : Type) :
    (∀ ops : List (FOp V E),
      (runDeferred DeferredPromise.new ops).inner = runNative Machine.init ops)
    ∧ isThenable DeferredPromise.members = true
    ∧ DeferredPromise.members.toStringTag = "Promise"
    ∧ DeferredPromise.members.hasResolve = true
    ∧ DeferredPromise.members.hasReject = true
    ∧ (∀ (d : DeferredPromise V E) (c : Nat),
        (d.thenD c).inner = attach CbKind.onOk c d.inner)
    ∧ (∀ (d : DeferredPromise V E) (c : Nat),
        (d.catchD c).inner = attach CbKind.onErr c d.inner)
    ∧ (∀ (d : DeferredPromise V E) (c : Nat),
        (d.finallyD c).inner = attach CbKind.onFin c d.inner)
    ∧ (∀ (d : DeferredPromise V E) (v : V), (d.resolveD v).inner = settleOk v d.inner)
    ∧ (∀ (d : DeferredPromise V E) (e : E), (d.rejectD e).inner = settleErr e d.inner) :=
  ⟨fun ops => runDeferred_inner ops DeferredPromise.new, rfl, rfl, rfl, rfl,
   fun _ _ => rfl, fun _ _ => rfl, fun _ _ => rfl, fun _ _ => rfl, fun _ _ => rfl⟩
